import Mathlib

/-!
Verification of the quantum-memory analysis engine
(`backend/quantum_engine.py`, `backend/main.py`, `api/quantum_engine.py`).

The Python code is shallowly embedded: floats become `ℝ`, complex numpy
arrays become `List ℂ`, dictionaries become association lists or explicit
functions, and the engine's mutable result cache becomes explicit state
passing.  Randomness (random.randint, np.random.exponential) and the two
external collaborators (the circuit backend and the geocoding service) are
modelled as oracle arguments supplied to the embedded functions, so each
theorem quantifies over every draw the source could see.  Python's salted
string hash is an abstract argument `hashF : String → ℤ`.
-/

namespace QMemory

/-! ## Engine constants (`QuantumMemoryEngine.__init__`, backend lines 69-71) -/

def qubit_count : ℕ := 8

def memory_dimension : ℕ := 128

def emotion_dimension : ℕ := 32

/-! ## Data model (`backend/models.py`) -/

structure Coordinates where
  lat : ℝ
  lng : ℝ

structure Location where
  name : String
  story : String
  probability : ℝ
  coordinates : Coordinates

structure SecondaryLocation where
  name : String
  probability : ℝ
  description : String
  coordinates : Option Coordinates

structure QuantumState where
  coherence : ℝ
  entanglement : ℝ
  superposition : ℝ

structure QuantumResult where
  primary_location : Location
  secondary_locations : List SecondaryLocation
  quantum_state : QuantumState
  analysis_time : ℤ

structure MemoryVector where
  components : List ℂ
  dimension : ℕ
  entanglement_measure : ℝ

structure EmotionQuantumState where
  amplitudes : List ℂ
  phases : List ℝ
  coherence_measure : ℝ

/-! ## Pearson correlation (np.corrcoef as used at backend line 580) -/

noncomputable def listMean (l : List ℝ) : ℝ := l.sum / l.length

/-- Each entry minus the list's mean. -/
noncomputable def deviations (l : List ℝ) : List ℝ := l.map (fun x => x - listMean l)

noncomputable def covSum (xs ys : List ℝ) : ℝ :=
  (((deviations xs).zip (deviations ys)).map (fun p => p.1 * p.2)).sum

noncomputable def varSum (xs : List ℝ) : ℝ := ((deviations xs).map (fun d => d ^ 2)).sum

/-- np.corrcoef(x, y)[0, 1]: the sample Pearson correlation.  The 1/(n-1)
normalisations of covariance and the two variances cancel in the ratio, so
the plain centered sums are used. -/
noncomputable def corrcoef (xs ys : List ℝ) : ℝ :=
  covSum xs ys / (Real.sqrt (varSum xs) * Real.sqrt (varSum ys))

open Classical in
/-- Backend lines 580-582: np.corrcoef yields NaN exactly when one of the
two centered-square sums vanishes (division 0/0); the engine then replaces
the NaN with 0.5. -/
noncomputable def correlationOf (xs ys : List ℝ) : ℝ :=
  if varSum xs = 0 ∨ varSum ys = 0 then 0.5 else corrcoef xs ys

/-! ## `_quantum_entanglement_analysis` (backend lines 573-598) -/

structure EntanglementAnalysis where
  entanglement_strength : ℝ
  correlation : ℝ
  prob_primary : ℝ
  prob_secondary_1 : ℝ
  prob_secondary_2 : ℝ

/-- Backend lines 573-598.  The three `location_probabilities` entries
(`dynamic_primary`, `dynamic_secondary_1`, `dynamic_secondary_2`) are the
`prob_*` fields. -/
noncomputable def quantumEntanglementAnalysis (mv : MemoryVector) (es : EmotionQuantumState) :
    EntanglementAnalysis :=
  let memory_amplitudes := (mv.components.take emotion_dimension).map (fun c => Complex.abs c)
  let emotion_amplitudes := es.amplitudes.map (fun c => Complex.abs c)
  let correlation := correlationOf memory_amplitudes emotion_amplitudes
  let entanglement_strength :=
    |correlation| * mv.entanglement_measure * es.coherence_measure
  { entanglement_strength := entanglement_strength
    correlation := correlation
    prob_primary := 0.75 + entanglement_strength * 0.2
    prob_secondary_1 := 0.35 + correlation * 0.3
    prob_secondary_2 := 0.25 + mv.entanglement_measure * 0.2 }

/-! ## Result assembly (`analyze_memory`, backend lines 600-689)

`_generate_location_dynamically` awaits the geocoding collaborator, so the
three generated location payloads are produced by an oracle `gen` mapping
the slot's probability weight and its `is_primary` flag to the fields
`analyze_memory` reads out of the returned dictionary. -/

structure GeneratedLocation where
  name : String
  coordinates : Coordinates
  country : String
  cultural_context : String

/-- Python str.upper() (used for the country codes in the stories). -/
def pyUpper (s : String) : String := String.mk (s.toList.map Char.toUpper)

/-- Backend lines 624-689: everything `analyze_memory` does after the two
encoded states exist, on a cache miss.  Probabilities are read from
`location_probabilities` (the keys are always present, so the `.get`
defaults 0.6 / 0.3 / 0.2 are dead).  `analysis_time` is 0 at construction
(line 683). -/
noncomputable def assembleResult (mv : MemoryVector) (es : EmotionQuantumState)
    (memory_text : String) (gen : ℝ → Bool → GeneratedLocation) : QuantumResult :=
  let analysis := quantumEntanglementAnalysis mv es
  let primary_data := gen analysis.prob_primary true
  let secondary_data_1 := gen analysis.prob_secondary_1 false
  let secondary_data_2 := gen analysis.prob_secondary_2 false
  { primary_location :=
      { name := primary_data.name
        story := "量子推定: " ++ memory_text.take 30 ++ "... → " ++ pyUpper primary_data.country
        probability := analysis.prob_primary
        coordinates := primary_data.coordinates }
    secondary_locations :=
      [ { name := secondary_data_1.name
          probability := analysis.prob_secondary_1
          description := "量子推定: " ++ pyUpper secondary_data_1.country ++ " 地域"
          coordinates := some secondary_data_1.coordinates }
      , { name := secondary_data_2.name
          probability := analysis.prob_secondary_2
          description := "代替可能性: " ++ secondary_data_2.cultural_context
          coordinates := some secondary_data_2.coordinates } ]
    quantum_state :=
      { coherence := es.coherence_measure
        entanglement := analysis.entanglement_strength
        superposition := mv.entanglement_measure }
    analysis_time := 0 }

/-- The ordering property §8 claims of `secondary_locations`: every
adjacent pair is non-increasing in probability. -/
def probsSortedDesc (r : QuantumResult) : Prop :=
  List.Chain' (fun a b => a ≥ b) (r.secondary_locations.map (fun s => s.probability))

/-! ## The result cache and the routing layer

`self._result_cache` is the only mutable state `analyze_memory` touches; it
maps the md5 content key of `(memory_text, emotion)` to a shared
`QuantumResult` object.  The embedding keys the cache by the pair itself
(md5 is treated as injective) and represents Python's object aliasing by
writing every mutation of a returned result through to the cache entry. -/

structure EngineState where
  result_cache : String × String → Option QuantumResult

def EngineState.store (st : EngineState) (key : String × String) (r : QuantumResult) :
    EngineState :=
  ⟨fun k => if k = key then some r else st.result_cache k⟩

/-- `analyze_memory` (backend lines 600-689).  On a hit (lines 605-609) the
cached object's `analysis_time` is set to 0 and the same object is
returned; on a miss the assembled result is stored (line 687) and
returned.  The encoder outputs `mv`, `es` and the generated location
payloads `gen` are the call's oracle inputs (they carry all of the
randomness of the encoders and collaborators). -/
noncomputable def analyzeMemory (st : EngineState) (memory_text emotion : String)
    (mv : MemoryVector) (es : EmotionQuantumState) (gen : ℝ → Bool → GeneratedLocation) :
    QuantumResult × EngineState :=
  match st.result_cache (memory_text, emotion) with
  | some cached =>
      let returned := { cached with analysis_time := 0 }
      (returned, st.store (memory_text, emotion) returned)
  | none =>
      let result := assembleResult mv es memory_text gen
      (result, st.store (memory_text, emotion) result)

/-- The `/api/quantum/analyze` route (`backend/main.py` lines 73-96): it
calls `analyze_memory` and then mutates the returned object's
`analysis_time` to the measured elapsed milliseconds; since the returned
object is the cache entry, the cache sees the new value too. -/
noncomputable def routeAnalyze (st : EngineState) (memory_text emotion : String)
    (mv : MemoryVector) (es : EmotionQuantumState) (gen : ℝ → Bool → GeneratedLocation)
    (elapsed_ms : ℤ) : QuantumResult × EngineState :=
  let step := analyzeMemory st memory_text emotion mv es gen
  let routed := { step.1 with analysis_time := elapsed_ms }
  (routed, step.2.store (memory_text, emotion) routed)

/-! ## Vector normalisation (backend lines 492-495, api lines 221-224 and 244-247)

Both encoders end with `norm = np.linalg.norm(v); if norm > 0: v /= norm`. -/

noncomputable def l2Norm (v : List ℂ) : ℝ :=
  Real.sqrt ((v.map (fun c => Complex.abs c ^ 2)).sum)

noncomputable def normalizeVector (v : List ℂ) : List ℂ :=
  if 0 < l2Norm v then v.map (fun c => c / (l2Norm v : ℂ)) else v

/-! ## `_calculate_quantum_coherence` (backend lines 561-571) -/

/-- np.var: the population variance. -/
noncomputable def npVariance (l : List ℝ) : ℝ :=
  ((l.map (fun x => (x - listMean l) ^ 2)).sum) / l.length

/-- Backend lines 561-571, over the list of the counts dict's values.
Returns 0.7 for zero total shots, else `1 - var(probs)` (or 0.8 for a
single state) clamped into [0.3, 1.0]. -/
noncomputable def calculateQuantumCoherence (counts : List ℕ) : ℝ :=
  let total_shots := counts.sum
  if total_shots = 0 then 0.7
  else
    let probs := counts.map (fun c : ℕ => (c : ℝ) / total_shots)
    let coherence := if 1 < probs.length then 1 - npVariance probs else 0.8
    max 0.3 (min 1.0 coherence)

/-! ## `_calculate_quantum_entanglement` (backend lines 511-525) -/

/-- Backend lines 511-525, over the list of the counts dict's values.
Shannon entropy (log2) of the probabilities of the positive counts,
divided by `np.log2(min(2 ** qubit_count, 32))`. -/
noncomputable def calculateQuantumEntanglement (counts : List ℕ) : ℝ :=
  let total_shots := counts.sum
  if total_shots = 0 then 0.5
  else
    let entropyBits :=
      (counts.map (fun c : ℕ =>
        if 0 < c then -((c : ℝ) / total_shots * Real.logb 2 ((c : ℝ) / total_shots))
        else 0)).sum
    let max_entropy := Real.logb 2 ((min (2 ^ qubit_count) 32 : ℕ) : ℝ)
    if 0 < max_entropy then entropyBits / max_entropy else 0.5

/-! ## The circuit-simulation fallback tiers

`_execute_quantum_circuit` (backend lines 397-443) and
`_classical_circuit_simulation` (backend lines 445-453).  `randint i`
models `random.randint(1, 64)` for the i-th representative state, and
`expDraw i` models `int(np.random.exponential(scale=2.0) * 32)`; both are
oracle inputs carrying the tiers' randomness. -/

/-- Python format(i, f"0{q}b"): zero-padded binary rendering (for i < 2^q). -/
def pyFormatBin (width n : ℕ) : String :=
  String.mk ((List.range width).map (fun j => if n / 2 ^ (width - 1 - j) % 2 = 1 then '1' else '0'))

/-- Backend lines 399-405: the Qiskit-absent fallback of
`_execute_quantum_circuit` (16 representative states, each with a count
drawn by `random.randint(1, 64)`). -/
def mockCircuitCounts (randint : ℕ → ℕ) : List (String × ℕ) :=
  (List.range 16).map (fun i => (pyFormatBin qubit_count i, randint i))

/-- Backend lines 445-453: `int(np.random.exponential(scale=2.0) * 32) + 1`
per state, over `min(32, 2 ** qubit_count)` states. -/
def classicalCircuitSimulation (expDraw : ℕ → ℕ) : List (String × ℕ) :=
  (List.range (min 32 (2 ^ qubit_count))).map
    (fun i => (pyFormatBin qubit_count i, expDraw i + 1))

/-! ## Coordinate resolution (`_get_real_coordinates`, backend lines 969-1016) -/

structure GeocodeResult where
  lat : ℝ
  lng : ℝ
  formatted_address : String
  confidence : ℝ

structure GeographicContext where
  region : String
  country : String
  urban_rural : String
  cultural_context : String
  confidence : ℝ

/-- Backend lines 993-1016: the deterministic fallback coordinates.  The
five known countries use their reference point plus
`(hash(location_name) % 100 - 50) * 0.001` on both axes; an unknown
country falls to the Tokyo-centred global default with a ±0.1 jitter. -/
noncomputable def regionalFallback (hashF : String → ℤ) (location_name country : String) :
    Coordinates :=
  let off : ℝ := ((hashF location_name % 100 - 50 : ℤ) : ℝ) * 0.001
  if country = "france" then ⟨48.8566 + off, 2.3522 + off⟩
  else if country = "japan" then ⟨35.0116 + off, 135.7681 + off⟩
  else if country = "italy" then ⟨41.9028 + off, 12.4964 + off⟩
  else if country = "uk" then ⟨51.5074 + off, -0.1278 + off⟩
  else if country = "usa" then ⟨40.7128 + off, -74.0060 + off⟩
  else
    let offG : ℝ := ((hashF (location_name ++ country) % 200 - 100 : ℤ) : ℝ) * 0.001
    ⟨35.6762 + offG, 139.6503 + offG⟩

open Classical in
/-- Backend lines 969-1016.  `geo` is the geocoding collaborator's
response: `none` models both an exception and a falsy result, and a
result whose confidence is not above 0.4 is rejected (line 983). -/
noncomputable def getRealCoordinates (hashF : String → ℤ) (geo : Option GeocodeResult)
    (location_name : String) (context : GeographicContext) : Coordinates :=
  match geo with
  | some g =>
      if 0.4 < g.confidence then ⟨g.lat, g.lng⟩
      else regionalFallback hashF location_name context.country
  | none => regionalFallback hashF location_name context.country

/-- The regional reference points the spec documents (the unjittered base
coordinates of backend lines 994-1004), for stating claim C8. -/
def referencePoint (country : String) : ℝ × ℝ :=
  if country = "france" then (48.8566, 2.3522)
  else if country = "japan" then (35.0116, 135.7681)
  else if country = "italy" then (41.9028, 12.4964)
  else if country = "uk" then (51.5074, -0.1278)
  else if country = "usa" then (40.7128, -74.0060)
  else (35.6762, 139.6503)

/-- The jitter offset of the known-country fallback. -/
noncomputable def jitterOf (hashF : String → ℤ) (location_name : String) : ℝ :=
  ((hashF location_name % 100 - 50 : ℤ) : ℝ) * 0.001

def knownCountries : List String := ["france", "japan", "italy", "uk", "usa"]

/-! ## Python string helpers for the synthesizer -/

def pyLower (s : String) : String := String.mk (s.toList.map Char.toLower)

/-- Whether `needle` occurs as a contiguous run of `hay` (Python's
`needle in hay` on strings). -/
def containsSeq (hay needle : List Char) : Bool :=
  match hay with
  | [] => needle.isEmpty
  | _ :: t => needle.isPrefixOf hay || containsSeq t needle

def pyInStr (needle hay : String) : Bool := containsSeq hay.toList needle.toList

/-- Python str.split() with no argument: split on whitespace, dropping
empty pieces.  `cur` accumulates the current word reversed. -/
def splitWordsAux (cs : List Char) (cur : List Char) : List String :=
  match cs with
  | [] => if cur.isEmpty then [] else [String.mk cur.reverse]
  | c :: t =>
      if c.isWhitespace then
        if cur.isEmpty then splitWordsAux t [] else String.mk cur.reverse :: splitWordsAux t []
      else splitWordsAux t (c :: cur)

def pySplit (s : String) : List String := splitWordsAux s.toList []

/-- Python " ".join. -/
def pyJoinSpace (l : List String) : String := String.intercalate " " l

/-! ## `_analyze_geographic_context` (backend lines 790-882) -/

def france_indicators : List String :=
  ["パリ", "paris", "セーヌ", "seine", "エッフェル", "eiffel",
   "カフェ", "café", "モンマルトル", "ルーヴル", "シャンゼリゼ"]

def japan_indicators : List String :=
  ["京都", "kyoto", "東京", "tokyo", "神社", "寺", "石段",
   "竹", "桜", "金閣", "清水", "奈良", "鎌倉"]

def italy_indicators : List String :=
  ["ローマ", "rome", "フィレンツェ", "ヴェネツィア",
   "トスカーナ", "コロッセオ", "オリーブ", "ワイン"]

def uk_indicators : List String :=
  ["ロンドン", "london", "テムズ", "thames", "ビッグベン",
   "紅茶", "霧", "石造り"]

def usa_indicators : List String :=
  ["ニューヨーク", "new_york", "カリフォルニア",
   "タクシー", "摩天楼", "ビーチ"]

/-- `sum(1 for indicator in indicators if indicator in keyword_text)`. -/
def indicatorScore (indicators : List String) (keyword_text : String) : ℕ :=
  (indicators.filter (fun ind => pyInStr ind keyword_text)).length

/-- The country labels in the source dict's insertion order; Python's
`max(scores, key=scores.get)` returns the first label attaining the
maximum in this order. -/
def mkGeographicContext (country : String) (confidence : ℝ) : GeographicContext :=
  if country = "france" then ⟨"europe", "france", "urban", "french_european", confidence⟩
  else if country = "japan" then ⟨"asia", "japan", "traditional", "japanese", confidence⟩
  else if country = "italy" then ⟨"europe", "italy", "mixed", "mediterranean", confidence⟩
  else if country = "uk" then ⟨"europe", "uk", "urban", "british", confidence⟩
  else ⟨"north_america", "usa", "urban", "american", confidence⟩

/-- Backend lines 790-882. -/
noncomputable def analyzeGeographicContext (keywords : List String) : GeographicContext :=
  let keyword_text := pyLower (pyJoinSpace keywords)
  let france_score := indicatorScore france_indicators keyword_text
  let japan_score := indicatorScore japan_indicators keyword_text
  let italy_score := indicatorScore italy_indicators keyword_text
  let uk_score := indicatorScore uk_indicators keyword_text
  let usa_score := indicatorScore usa_indicators keyword_text
  let max_score := max france_score (max japan_score (max italy_score (max uk_score usa_score)))
  if 0 < max_score then
    let best_match :=
      if france_score = max_score then "france"
      else if japan_score = max_score then "japan"
      else if italy_score = max_score then "italy"
      else if uk_score = max_score then "uk"
      else "usa"
    let confidence : ℝ := min 0.9 ((max_score : ℝ) / 5.0)
    mkGeographicContext best_match confidence
  else ⟨"unknown", "unknown", "unknown", "unknown", 0.0⟩

/-! ## `_calculate_emotional_resonance` (backend lines 1018-1084)

Python dicts become association lists preserving insertion order. -/

abbrev ResonanceMap := List (String × ℝ)

def rmMem (m : ResonanceMap) (k : String) : Bool := m.any (fun p => p.1 == k)

def rmGet (m : ResonanceMap) (k : String) : ℝ :=
  match m.find? (fun p => p.1 == k) with
  | some p => p.2
  | none => 0

/-- Python dict assignment: overwrite in place or append. -/
def rmSet (m : ResonanceMap) (k : String) (v : ℝ) : ResonanceMap :=
  if rmMem m k then m.map (fun p => if p.1 == k then (k, v) else p) else m ++ [(k, v)]

/-- Backend lines 1029-1050. -/
def regional_emotions : List (String × List (String × ℝ)) :=
  [("france",
    [("romantic", 0.92), ("nostalgic", 0.88), ("artistic", 0.85),
     ("sophisticated", 0.80), ("melancholy", 0.70)]),
   ("japan",
    [("peaceful", 0.95), ("contemplative", 0.90), ("nostalgic", 0.88),
     ("serene", 0.85), ("spiritual", 0.82), ("harmonious", 0.80)]),
   ("italy",
    [("warm", 0.90), ("passionate", 0.88), ("artistic", 0.85),
     ("joyful", 0.82), ("romantic", 0.80), ("vibrant", 0.78)]),
   ("uk",
    [("mysterious", 0.85), ("nostalgic", 0.82), ("literary", 0.80),
     ("melancholy", 0.78), ("traditional", 0.75)]),
   ("usa",
    [("energetic", 0.90), ("optimistic", 0.85), ("bold", 0.82),
     ("modern", 0.80), ("ambitious", 0.78)])]

/-- Backend lines 1067-1073. -/
def emotion_boosters : List (String × List String) :=
  [("nostalgic", ["古い", "記憶", "懐かし", "思い出"]),
   ("peaceful", ["静か", "穏やか", "平和", "静寂"]),
   ("romantic", ["美しい", "特別", "甘い", "ロマンチック"]),
   ("mysterious", ["違い", "神秘", "不思議", "長"]),
   ("warm", ["温かい", "優しい", "包まれる", "心地よい"])]

/-- Backend lines 1018-1084: base score 0.75 for the requested emotion,
regional profile blended by confidence, keyword boosts capped at 0.15,
then every entry clamped into [0.3, 0.98]. -/
noncomputable def calculateEmotionalResonance (keywords : List String) (emotion : String)
    (context : GeographicContext) : ResonanceMap :=
  let base0 : ResonanceMap := [(pyLower emotion, 0.75)]
  let confidence := context.confidence
  let base1 :=
    match regional_emotions.find? (fun p => p.1 == context.country) with
    | some prof =>
        prof.2.foldl (fun m q => rmSet m q.1 (q.2 * confidence + (1 - confidence) * 0.6)) base0
    | none => base0
  let keyword_text := pyLower (pyJoinSpace keywords)
  let base2 :=
    emotion_boosters.foldl (fun m q =>
      let boost_count := (q.2.filter (fun w => pyInStr w keyword_text)).length
      if 0 < boost_count ∧ rmMem m q.1 then
        rmSet m q.1 (rmGet m q.1 + min 0.15 ((boost_count : ℝ) * 0.05))
      else m) base1
  base2.map (fun p => (p.1, min 0.98 (max 0.3 p.2)))

/-! ## `_create_classical_memory_vector` (api/quantum_engine.py lines 232-255)

The api engine's classical fallback encoder.  Its `memory_dimension` is
256 (api line 34).  `entSample` models `np.random.uniform(0.3, 0.9)`. -/

def api_memory_dimension : ℕ := 256

inductive PyError where
  | zeroDivisionError
deriving DecidableEq

/-- Api lines 232-255.  The per-component expression
`sum(hash(word + str(i)) % 100 for word in words) / (len(words) * 100)`
divides by `len(words) * 100`, a Python int: when `words` is empty the
very first loop iteration raises ZeroDivisionError, which this embedding
hoists in front of the (otherwise unchanged) component loop. -/
noncomputable def createClassicalMemoryVector (hashF : String → ℤ) (entSample : ℝ)
    (memory_text : String) : Except PyError MemoryVector :=
  let words := pySplit (pyLower memory_text)
  if words.length * 100 = 0 then .error .zeroDivisionError
  else
    let comps := (List.range api_memory_dimension).map (fun i =>
      let word_influence : ℝ :=
        (((words.map (fun w => hashF (w ++ toString i) % 100)).sum : ℤ) : ℝ) /
          ((words.length * 100 : ℕ) : ℝ)
      let phase : ℝ := ((hashF (memory_text ++ toString i) % 628 : ℤ) : ℝ) / 100
      (Real.sqrt word_influence : ℂ) * Complex.exp (Complex.I * (phase : ℂ)))
    let vector_components := normalizeVector comps
    .ok { components := vector_components
          dimension := api_memory_dimension
          entanglement_measure := entSample }

/-! ## Concrete inputs used by witnesses and counterexamples -/

/-- A fixed generated-location payload (the assembly treats the generator
as opaque data). -/
noncomputable def genTrivial : ℝ → Bool → GeneratedLocation :=
  fun _ _ => ⟨"心に残る風景", ⟨0, 0⟩, "unknown", "unknown"⟩

/-- An encoder output whose first 32 component magnitudes alternate 0,1:
reachable magnitudes (they are per-bit probabilities of measured counts),
entanglement measure 1 (a uniform 32-state count distribution). -/
noncomputable def mvC2 : MemoryVector :=
  ⟨(List.range 32).map (fun i => if i % 2 = 0 then (0 : ℂ) else 1), 128, 1⟩

/-- An emotion state whose amplitude magnitudes follow the period-4
pattern 1,1,0,0: its magnitude sequence is uncorrelated with `mvC2`'s. -/
noncomputable def esC2 : EmotionQuantumState :=
  ⟨(List.range 32).map (fun i => if i % 4 < 2 then (1 : ℂ) else 0), List.replicate 32 0, 0.7⟩

/-- An all-zero memory vector with mid-range entanglement measure. -/
noncomputable def mvZero : MemoryVector := ⟨List.replicate 32 0, 128, 0.5⟩

/-- An all-zero emotion state. -/
noncomputable def esZero : EmotionQuantumState :=
  ⟨List.replicate 32 0, List.replicate 32 0, 0.7⟩

/-- The engine state with an empty result cache (a fresh process). -/
def stEmpty : EngineState := ⟨fun _ => none⟩

/-- A concrete cached result. -/
noncomputable def rW : QuantumResult :=
  ⟨⟨"鎌倉の静かな石段寺", "story", 0.9, ⟨35.3197, 139.5464⟩⟩, [], ⟨0.5, 0.6, 0.7⟩, 0⟩

/-- An engine state holding `rW` under one key. -/
noncomputable def stW : EngineState :=
  ⟨fun k => if k = ("古い寺の石段", "nostalgic") then some rW else none⟩

/-- A concrete classified context (country japan, confidence 0.8). -/
noncomputable def ctxJapan : GeographicContext :=
  ⟨"asia", "japan", "traditional", "japanese", 0.8⟩

end QMemory

namespace QMemory

/-! # Theorems -/

/-! ## Helper lemmas: evaluating the Pearson correlation on the concrete
encoder outputs above -/

lemma abs_map_ite_01 (c : ℕ → Prop) [DecidablePred c] :
    ((List.range 32).map (fun i => if c i then (0 : ℂ) else 1)).map (fun z => Complex.abs z) =
      (List.range 32).map (fun i => if c i then (0 : ℝ) else 1) := by
  rw [List.map_map]
  refine List.map_congr_left (fun i _ => ?_)
  by_cases h : c i <;> simp [h]

lemma abs_map_ite_10 (c : ℕ → Prop) [DecidablePred c] :
    ((List.range 32).map (fun i => if c i then (1 : ℂ) else 0)).map (fun z => Complex.abs z) =
      (List.range 32).map (fun i => if c i then (1 : ℝ) else 0) := by
  rw [List.map_map]
  refine List.map_congr_left (fun i _ => ?_)
  by_cases h : c i <;> simp [h]

lemma corrC2 :
    correlationOf
      ((List.range 32).map (fun i => if i % 2 = 0 then (0 : ℝ) else 1))
      ((List.range 32).map (fun i => if i % 4 < 2 then (1 : ℝ) else 0)) = 0 := by
  have hxsum : ((List.range 32).map (fun i => if i % 2 = 0 then (0:ℝ) else 1)).sum = 16 := by
    simp [List.range_succ]
    norm_num
  have hysum : ((List.range 32).map (fun i => if i % 4 < 2 then (1:ℝ) else 0)).sum = 16 := by
    simp [List.range_succ]
    norm_num
  have hxmean : listMean ((List.range 32).map (fun i => if i % 2 = 0 then (0:ℝ) else 1)) = 1/2 := by
    rw [listMean, hxsum]
    norm_num
  have hymean : listMean ((List.range 32).map (fun i => if i % 4 < 2 then (1:ℝ) else 0)) = 1/2 := by
    rw [listMean, hysum]
    norm_num
  have hxdev : deviations ((List.range 32).map (fun i => if i % 2 = 0 then (0:ℝ) else 1)) =
      (List.range 32).map (fun i => (if i % 2 = 0 then (0:ℝ) else 1) - 1/2) := by
    rw [deviations, hxmean, List.map_map]
    rfl
  have hydev : deviations ((List.range 32).map (fun i => if i % 4 < 2 then (1:ℝ) else 0)) =
      (List.range 32).map (fun i => (if i % 4 < 2 then (1:ℝ) else 0) - 1/2) := by
    rw [deviations, hymean, List.map_map]
    rfl
  have hvx : varSum ((List.range 32).map (fun i => if i % 2 = 0 then (0:ℝ) else 1)) = 8 := by
    rw [varSum, hxdev, List.map_map]
    show ((List.range 32).map (fun i => ((if i % 2 = 0 then (0:ℝ) else 1) - 1/2) ^ 2)).sum = 8
    simp [List.range_succ]
    norm_num
  have hvy : varSum ((List.range 32).map (fun i => if i % 4 < 2 then (1:ℝ) else 0)) = 8 := by
    rw [varSum, hydev, List.map_map]
    show ((List.range 32).map (fun i => ((if i % 4 < 2 then (1:ℝ) else 0) - 1/2) ^ 2)).sum = 8
    simp [List.range_succ]
    norm_num
  have hcov : covSum ((List.range 32).map (fun i => if i % 2 = 0 then (0:ℝ) else 1))
      ((List.range 32).map (fun i => if i % 4 < 2 then (1:ℝ) else 0)) = 0 := by
    rw [covSum, hxdev, hydev, List.zip_map', List.map_map]
    show ((List.range 32).map (fun i =>
      ((if i % 2 = 0 then (0:ℝ) else 1) - 1/2) * ((if i % 4 < 2 then (1:ℝ) else 0) - 1/2))).sum = 0
    simp [List.range_succ]
    norm_num
  rw [correlationOf, if_neg, corrcoef, hcov, zero_div]
  rw [hvx, hvy]
  push_neg
  norm_num

lemma correlationOf_zero_left (ys : List ℝ) :
    correlationOf (List.replicate 32 (0 : ℝ)) ys = 0.5 := by
  rw [correlationOf, if_pos]
  left
  rw [varSum, deviations, listMean]
  simp

lemma analysisC2_probs :
    (quantumEntanglementAnalysis mvC2 esC2).prob_secondary_1 = 0.35 ∧
      (quantumEntanglementAnalysis mvC2 esC2).prob_secondary_2 = 0.45 := by
  have htake : mvC2.components.take emotion_dimension = mvC2.components := by
    apply List.take_of_length_le
    simp [mvC2, emotion_dimension]
  have hcorr : (quantumEntanglementAnalysis mvC2 esC2).correlation = 0 := by
    show correlationOf ((mvC2.components.take emotion_dimension).map (fun c => Complex.abs c))
      (esC2.amplitudes.map (fun c => Complex.abs c)) = 0
    rw [htake]
    show correlationOf
        (((List.range 32).map (fun i => if i % 2 = 0 then (0 : ℂ) else 1)).map
          (fun z => Complex.abs z))
        (((List.range 32).map (fun i => if i % 4 < 2 then (1 : ℂ) else 0)).map
          (fun z => Complex.abs z)) = 0
    rw [abs_map_ite_01, abs_map_ite_10]
    exact corrC2
  constructor
  · show 0.35 + (quantumEntanglementAnalysis mvC2 esC2).correlation * 0.3 = 0.35
    rw [hcorr]
    norm_num
  · show 0.25 + mvC2.entanglement_measure * 0.2 = 0.45
    show 0.25 + (1 : ℝ) * 0.2 = 0.45
    norm_num

/-- C1: for every analysis request, the three probability weights of the
assembled result are the fixed linear formulas
`primary = 0.75 + 0.2 * entanglement_strength`,
`secondary_1 = 0.35 + 0.3 * correlation` and
`secondary_2 = 0.25 + 0.2 * memory.entanglement_measure`, where strength
and correlation are the EntanglementAnalyzer's outputs and the
entanglement measure is the memory vector's. -/
theorem c1_probability_weights (mv : MemoryVector) (es : EmotionQuantumState)
    (memory_text : String) (gen : ℝ → Bool → GeneratedLocation) :
    (assembleResult mv es memory_text gen).primary_location.probability =
      0.75 + 0.2 * (quantumEntanglementAnalysis mv es).entanglement_strength ∧
    (assembleResult mv es memory_text gen).secondary_locations.map (fun s => s.probability) =
      [0.35 + 0.3 * (quantumEntanglementAnalysis mv es).correlation,
       0.25 + 0.2 * mv.entanglement_measure] := by
  refine ⟨?_, ?_⟩
  · show 0.75 + (quantumEntanglementAnalysis mv es).entanglement_strength * 0.2 = _
    ring
  · show [0.35 + (quantumEntanglementAnalysis mv es).correlation * 0.3,
      0.25 + mv.entanglement_measure * 0.2] = _
    have e1 : 0.35 + (quantumEntanglementAnalysis mv es).correlation * 0.3 =
        0.35 + 0.3 * (quantumEntanglementAnalysis mv es).correlation := by ring
    have e2 : 0.25 + mv.entanglement_measure * 0.2 =  0.25 + 0.2 * mv.entanglement_measure := by
      ring
    rw [e1, e2]

/-- C2 counterexample: a request whose encoder outputs have uncorrelated
magnitude sequences (correlation 0) and a maximal memory entanglement
measure yields secondary probabilities [0.35, 0.45], which is not
non-increasing — `analyze_memory` never sorts the two secondary slots. -/
theorem c2_counterexample :
    ¬ probsSortedDesc (assembleResult mvC2 esC2 "静かな海の記憶" genTrivial) := by
  intro h
  rw [probsSortedDesc] at h
  have h2 : (assembleResult mvC2 esC2 "静かな海の記憶" genTrivial).secondary_locations.map
      (fun s => s.probability) =
      [(quantumEntanglementAnalysis mvC2 esC2).prob_secondary_1,
       (quantumEntanglementAnalysis mvC2 esC2).prob_secondary_2] := rfl
  rw [h2, analysisC2_probs.1, analysisC2_probs.2] at h
  rcases List.chain'_cons.mp h with ⟨hle, -⟩
  norm_num at hle

/-- C2 (amended): the two secondary locations appear in the fixed order
(secondary₁, secondary₂), so the sequence is sorted by non-increasing
probability exactly when `0.25 + 0.2*entanglement_measure ≤
0.35 + 0.3*correlation`; here the "if" direction, which covers every
request with correlation ≥ 1/3 (and all nonnegative-correlation requests
with entanglement_measure ≤ 1/2). -/
theorem c2_amended_sorted (mv : MemoryVector) (es : EmotionQuantumState)
    (memory_text : String) (gen : ℝ → Bool → GeneratedLocation)
    (h : (quantumEntanglementAnalysis mv es).prob_secondary_2 ≤
      (quantumEntanglementAnalysis mv es).prob_secondary_1) :
    probsSortedDesc (assembleResult mv es memory_text gen) := by
  rw [probsSortedDesc]
  have h2 : (assembleResult mv es memory_text gen).secondary_locations.map
      (fun s => s.probability) =
      [(quantumEntanglementAnalysis mv es).prob_secondary_1,
       (quantumEntanglementAnalysis mv es).prob_secondary_2] := rfl
  rw [h2]
  exact List.chain'_cons.mpr ⟨h, List.chain'_singleton _⟩

/-- C2 amended, witnessed at the all-zero encoder outputs: there the
correlation defaults to 0.5, the secondary probabilities are [0.5, 0.35]
and the sequence is sorted. -/
theorem c2_amended_sorted_witness :
    probsSortedDesc (assembleResult mvZero esZero "海" genTrivial) := by
  apply c2_amended_sorted
  have htake : mvZero.components.take emotion_dimension = mvZero.components := by
    apply List.take_of_length_le
    simp [mvZero, emotion_dimension]
  have hcorr : (quantumEntanglementAnalysis mvZero esZero).correlation = 0.5 := by
    show correlationOf ((mvZero.components.take emotion_dimension).map (fun c => Complex.abs c))
      (esZero.amplitudes.map (fun c => Complex.abs c)) = 0.5
    rw [htake]
    show correlationOf ((List.replicate 32 (0 : ℂ)).map (fun c => Complex.abs c))
      ((List.replicate 32 (0 : ℂ)).map (fun c => Complex.abs c)) = 0.5
    have : (List.replicate 32 (0 : ℂ)).map (fun c => Complex.abs c) =
        List.replicate 32 (0 : ℝ) := by
      simp
    rw [this]
    exact correlationOf_zero_left _
  show (quantumEntanglementAnalysis mvZero esZero).prob_secondary_2 ≤
    (quantumEntanglementAnalysis mvZero esZero).prob_secondary_1
  show 0.25 + mvZero.entanglement_measure * 0.2 ≤
    0.35 + (quantumEntanglementAnalysis mvZero esZero).correlation * 0.3
  rw [hcorr]
  show 0.25 + (0.5 : ℝ) * 0.2 ≤ 0.35 + 0.5 * 0.3
  norm_num

/-- C3: two orchestrator calls with the same `(memory_text, emotion)` —
whatever the second call's encoder outputs and generated payloads would
have been — return equal `quantum_state`s, and the second call's
`analysis_time` is 0 (the cache-hit path, backend lines 604-609). -/
theorem c3_cache_idempotence (st : EngineState) (memory_text emotion : String)
    (mv1 : MemoryVector) (es1 : EmotionQuantumState) (gen1 : ℝ → Bool → GeneratedLocation)
    (mv2 : MemoryVector) (es2 : EmotionQuantumState) (gen2 : ℝ → Bool → GeneratedLocation) :
    (analyzeMemory (analyzeMemory st memory_text emotion mv1 es1 gen1).2
        memory_text emotion mv2 es2 gen2).1.quantum_state =
      (analyzeMemory st memory_text emotion mv1 es1 gen1).1.quantum_state ∧
    (analyzeMemory (analyzeMemory st memory_text emotion mv1 es1 gen1).2
        memory_text emotion mv2 es2 gen2).1.analysis_time = 0 := by
  cases h : st.result_cache (memory_text, emotion) <;>
    simp [analyzeMemory, EngineState.store, h]

/-- C9 counterexample: the cached instance IS mutated.  After a first
routed request measured at 7 ms the cache entry's `analysis_time` is 7;
a second identical request (measured at 3 ms) rewrites the same shared
entry's `analysis_time` to 3. -/
theorem c9_counterexample :
    ((routeAnalyze stEmpty "memA" "nostalgic" mvZero esZero genTrivial 7).2.result_cache
        ("memA", "nostalgic")).map (fun r => r.analysis_time) = some 7 ∧
    ((routeAnalyze (routeAnalyze stEmpty "memA" "nostalgic" mvZero esZero genTrivial 7).2
        "memA" "nostalgic" mvZero esZero genTrivial 3).2.result_cache
        ("memA", "nostalgic")).map (fun r => r.analysis_time) = some 3 := by
  constructor <;> simp [routeAnalyze, analyzeMemory, EngineState.store, stEmpty]

/-- C9 (amended): a cached QuantumResult's `primary_location`,
`secondary_locations` and `quantum_state` are never changed by later
requests for the same key; only `analysis_time` is rewritten (to 0 by the
cache-hit path, then to the measured duration by the routing layer). -/
theorem c9_amended_frame (st : EngineState) (memory_text emotion : String)
    (mv : MemoryVector) (es : EmotionQuantumState) (gen : ℝ → Bool → GeneratedLocation)
    (elapsed_ms : ℤ) (r0 : QuantumResult)
    (h : st.result_cache (memory_text, emotion) = some r0) :
    ∃ r1, (routeAnalyze st memory_text emotion mv es gen elapsed_ms).2.result_cache
        (memory_text, emotion) = some r1 ∧
      r1.primary_location = r0.primary_location ∧
      r1.secondary_locations = r0.secondary_locations ∧
      r1.quantum_state = r0.quantum_state := by
  refine ⟨{ r0 with analysis_time := elapsed_ms }, ?_, rfl, rfl, rfl⟩
  simp [routeAnalyze, analyzeMemory, EngineState.store, h]

/-- C9 amended, witnessed on a concrete one-entry cache routed at 4 ms. -/
theorem c9_amended_frame_witness :
    ∃ r1, (routeAnalyze stW "古い寺の石段" "nostalgic" mvZero esZero genTrivial 4).2.result_cache
        ("古い寺の石段", "nostalgic") = some r1 ∧
      r1.primary_location = rW.primary_location ∧
      r1.secondary_locations = rW.secondary_locations ∧
      r1.quantum_state = rW.quantum_state :=
  c9_amended_frame stW "古い寺の石段" "nostalgic" mvZero esZero genTrivial 4 rW (by
    simp [stW])

/-! ## Normalisation (C5) -/

lemma list_sum_map_div {α : Type} (l : List α) (f : α → ℝ) (a : ℝ) :
    (l.map (fun x => f x / a)).sum = (l.map f).sum / a := by
  induction l with
  | nil => simp
  | cons x t ih => simp [ih, add_div]

lemma sumSq_nonneg (v : List ℂ) : 0 ≤ (v.map (fun c => Complex.abs c ^ 2)).sum := by
  apply List.sum_nonneg
  intro x hx
  rcases List.mem_map.mp hx with ⟨c, -, rfl⟩
  positivity

/-- C5: the encoders' shared normalisation post-step — for every raw
vector, the result has L2 norm exactly 1, or the raw norm was 0, the
vector is returned unscaled and it is exactly the zero vector (no
division by zero occurs). -/
theorem c5_normalization (v : List ℂ) :
    l2Norm (normalizeVector v) = 1 ∨ (normalizeVector v = v ∧ ∀ c ∈ v, c = 0) := by
  by_cases h : 0 < l2Norm v
  · left
    have hS : 0 < (v.map (fun c => Complex.abs c ^ 2)).sum := by
      have := Real.sqrt_pos.mp (by rwa [l2Norm] at h)
      exact this
    rw [normalizeVector, if_pos h, l2Norm, List.map_map]
    have hmap : (v.map ((fun c => Complex.abs c ^ 2) ∘ (fun c => c / (l2Norm v : ℂ)))).sum =
        (v.map (fun c => Complex.abs c ^ 2 / l2Norm v ^ 2)).sum := by
      congr 1
      refine List.map_congr_left (fun c _ => ?_)
      show Complex.abs (c / (l2Norm v : ℂ)) ^ 2 = Complex.abs c ^ 2 / l2Norm v ^ 2
      rw [map_div₀, Complex.abs_ofReal, abs_of_pos h, div_pow]
    rw [hmap]
    have hdiv : (v.map (fun c => Complex.abs c ^ 2 / l2Norm v ^ 2)).sum =
        (v.map (fun c => Complex.abs c ^ 2)).sum / l2Norm v ^ 2 :=
      list_sum_map_div v (fun c => Complex.abs c ^ 2) (l2Norm v ^ 2)
    rw [hdiv, l2Norm, Real.sq_sqrt (sumSq_nonneg v), div_self (ne_of_gt hS), Real.sqrt_one]
  · right
    have hz : l2Norm v = 0 := le_antisymm (not_lt.mp h) (Real.sqrt_nonneg _)
    have hS : (v.map (fun c => Complex.abs c ^ 2)).sum = 0 := by
      have hle : (v.map (fun c => Complex.abs c ^ 2)).sum ≤ 0 :=
        Real.sqrt_eq_zero'.mp (by rwa [l2Norm] at hz)
      exact le_antisymm hle (sumSq_nonneg v)
    refine ⟨by rw [normalizeVector, if_neg h], fun c hc => ?_⟩
    have hmem : Complex.abs c ^ 2 ∈ v.map (fun c => Complex.abs c ^ 2) :=
      List.mem_map.mpr ⟨c, hc, rfl⟩
    have hle : Complex.abs c ^ 2 ≤ 0 := by
      have := List.single_le_sum (l := v.map (fun c => Complex.abs c ^ 2))
        (fun x hx => by
          rcases List.mem_map.mp hx with ⟨d, -, rfl⟩
          positivity) _ hmem
      rwa [hS] at this
    have : Complex.abs c = 0 := by
      have h2 : Complex.abs c ^ 2 = 0 := le_antisymm hle (by positivity)
      exact pow_eq_zero_iff (by norm_num) |>.mp h2
    exact Complex.abs.eq_zero.mp this

/-! ## Coherence bounds (C10) -/

lemma calculateQuantumCoherence_bounds (counts : List ℕ) :
    0.3 ≤ calculateQuantumCoherence counts ∧ calculateQuantumCoherence counts ≤ 1 := by
  by_cases h : counts.sum = 0
  · rw [calculateQuantumCoherence, if_pos h]
    norm_num
  · rw [calculateQuantumCoherence, if_neg h]
    constructor
    · exact le_max_left _ _
    · exact max_le (by norm_num) (le_trans (min_le_left _ _) (by norm_num))

/-- C10: for every measurement-counts mapping, the backend's circuit-path
coherence lies in [0.3, 1.0] — never below the 0.3 floor — and equals
exactly 0.7 when the total shot count is 0. -/
theorem c10_coherence_floor (counts : List ℕ) :
    (0.3 ≤ calculateQuantumCoherence counts ∧ calculateQuantumCoherence counts ≤ 1) ∧
      (counts.sum = 0 → calculateQuantumCoherence counts = 0.7) :=
  ⟨calculateQuantumCoherence_bounds counts,
   fun h => by rw [calculateQuantumCoherence, if_pos h]⟩

/-! ## The empty-text encoding bug (C4) -/

/-- C4: on `memory_text = ""`, whatever the hash function and the random
entanglement draw, the api engine's classical fallback encoder raises
ZeroDivisionError (`words` is empty, so `len(words) * 100 = 0` divides
zero by zero) instead of returning the zero-effect vector the spec
requires. -/
theorem c4_empty_text_raises (hashF : String → ℤ) (entSample : ℝ) :
    createClassicalMemoryVector hashF entSample "" = .error .zeroDivisionError := by
  rw [createClassicalMemoryVector]
  have hwords : pySplit (pyLower "") = [] := by decide
  rw [hwords]
  simp

/-! ## The circuit-simulation fallbacks (C7) -/

/-- C7 counterexample: two draws that `random.randint(1, 64)` can both
produce (all 1s, all 2s) give the synthetic-fallback tier total counts of
16 and 32 — the values' sum is not any fixed shot count. -/
theorem c7_counterexample :
    ((mockCircuitCounts (fun _ => 1)).map Prod.snd).sum = 16 ∧
    ((mockCircuitCounts (fun _ => 2)).map Prod.snd).sum = 32 ∧
    ((mockCircuitCounts (fun _ => 1)).map Prod.snd).sum ≠
      ((mockCircuitCounts (fun _ => 2)).map Prod.snd).sum := by
  refine ⟨by rfl, by rfl, by decide⟩

/-- C7 (amended): both synthetic tiers always return a non-empty counts
mapping whose values are positive integers, but the total is not a fixed
shot count: for the Qiskit-absent mock tier it is only bounded — any
value in [16, 1024] can arise, moving with the random draw. -/
theorem c7_amended_counts :
    (∀ randint : ℕ → ℕ, (∀ i ∈ List.range 16, 1 ≤ randint i) →
      mockCircuitCounts randint ≠ [] ∧ ∀ p ∈ mockCircuitCounts randint, 1 ≤ p.2) ∧
    (∀ randint : ℕ → ℕ, (∀ i ∈ List.range 16, 1 ≤ randint i ∧ randint i ≤ 64) →
      16 ≤ ((mockCircuitCounts randint).map Prod.snd).sum ∧
        ((mockCircuitCounts randint).map Prod.snd).sum ≤ 1024) ∧
    (∀ expDraw : ℕ → ℕ,
      classicalCircuitSimulation expDraw ≠ [] ∧
        ∀ p ∈ classicalCircuitSimulation expDraw, 1 ≤ p.2) := by
  refine ⟨fun randint h => ⟨?_, ?_⟩, fun randint h => ?_, fun expDraw => ⟨?_, ?_⟩⟩
  · simp [mockCircuitCounts]
  · intro p hp
    rcases List.mem_map.mp hp with ⟨i, hi, rfl⟩
    exact h i hi
  · have hm : (mockCircuitCounts randint).map Prod.snd =
        (List.range 16).map (fun i => randint i) := by
      rw [mockCircuitCounts, List.map_map]
      rfl
    rw [hm]
    constructor
    · have h1 : ((List.range 16).map (fun _ => 1)).sum ≤
          ((List.range 16).map (fun i => randint i)).sum :=
        List.sum_le_sum (fun i hi => (h i hi).1)
      have h2 : ((List.range 16).map (fun _ : ℕ => 1)).sum = 16 := by decide
      omega
    · have h1 : ((List.range 16).map (fun i => randint i)).sum ≤
          ((List.range 16).map (fun _ => 64)).sum :=
        List.sum_le_sum (fun i hi => (h i hi).2)
      have h2 : ((List.range 16).map (fun _ : ℕ => 64)).sum = 1024 := by decide
      omega
  · simp [classicalCircuitSimulation]
  · intro p hp
    rcases List.mem_map.mp hp with ⟨i, hi, rfl⟩
    omega

/-! ## The geocoding fallback (C8) -/

lemma jitterOf_bound (hashF : String → ℤ) (name : String) :
    |jitterOf hashF name| ≤ 0.05 := by
  rw [jitterOf]
  have h1 : (0 : ℤ) ≤ hashF name % 100 := Int.emod_nonneg _ (by norm_num)
  have h2 : hashF name % 100 < 100 := Int.emod_lt_of_pos _ (by norm_num)
  have h1R : (0 : ℝ) ≤ ((hashF name % 100 : ℤ) : ℝ) := by exact_mod_cast h1
  have h2R : ((hashF name % 100 : ℤ) : ℝ) < 100 := by exact_mod_cast h2
  rw [abs_le]
  constructor <;> push_cast <;> nlinarith [h1R, h2R]

lemma regionalFallback_known (hashF : String → ℤ) (name country : String)
    (h : country ∈ knownCountries) :
    regionalFallback hashF name country =
      ⟨(referencePoint country).1 + jitterOf hashF name,
       (referencePoint country).2 + jitterOf hashF name⟩ := by
  simp only [knownCountries, List.mem_cons, List.not_mem_nil, or_false] at h
  rcases h with h | h | h | h | h <;>
    simp [regionalFallback, referencePoint, jitterOf, h, add_comm]

/-- C8: whenever the geocoding collaborator fails (`none`) or reports
confidence not exceeding 0.4, the resolved coordinates for a known
classified country are the country's fixed reference point plus the
jitter `(hash(name) % 100 - 50) * 0.001` applied to both axes, and that
jitter lies within ±0.05 degrees. -/
theorem c8_geocoding_fallback (hashF : String → ℤ) (geo : Option GeocodeResult)
    (location_name : String) (context : GeographicContext)
    (hfail : geo = none ∨ ∃ g, geo = some g ∧ g.confidence ≤ 0.4)
    (hknown : context.country ∈ knownCountries) :
    getRealCoordinates hashF geo location_name context =
      ⟨(referencePoint context.country).1 + jitterOf hashF location_name,
       (referencePoint context.country).2 + jitterOf hashF location_name⟩ ∧
    |jitterOf hashF location_name| ≤ 0.05 := by
  refine ⟨?_, jitterOf_bound hashF location_name⟩
  have hfb : getRealCoordinates hashF geo location_name context =
      regionalFallback hashF location_name context.country := by
    rcases hfail with rfl | ⟨g, rfl, hc⟩
    · rfl
    · show (if 0.4 < g.confidence then (⟨g.lat, g.lng⟩ : Coordinates)
        else regionalFallback hashF location_name context.country) = _
      rw [if_neg (not_lt.mpr hc)]
  rw [hfb]
  exact regionalFallback_known hashF location_name context.country hknown

/-- C8 witnessed at a concrete failed geocode (`none`), hash constantly 0
and the classified country japan. -/
theorem c8_geocoding_fallback_witness :
    getRealCoordinates (fun _ => 0) none "竹林の小径" ctxJapan =
      ⟨(referencePoint ctxJapan.country).1 + jitterOf (fun _ => 0) "竹林の小径",
       (referencePoint ctxJapan.country).2 + jitterOf (fun _ => 0) "竹林の小径"⟩ ∧
    |jitterOf (fun _ => (0 : ℤ)) "竹林の小径"| ≤ 0.05 :=
  c8_geocoding_fallback (fun _ => 0) none "竹林の小径" ctxJapan (Or.inl rfl) (by
    show "japan" ∈ knownCountries
    simp [knownCountries])

/-! ## Entropy bounds for the entanglement measure (C6) -/

lemma list_sum_map_add {α : Type} (l : List α) (u v : α → ℝ) :
    (l.map (fun x => u x + v x)).sum = (l.map u).sum + (l.map v).sum := by
  induction l with
  | nil => simp
  | cons x t ih =>
    simp only [List.map_cons, List.sum_cons, ih]
    ring

lemma list_sum_map_mul_right {α : Type} (l : List α) (g : α → ℝ) (a : ℝ) :
    (l.map (fun x => g x * a)).sum = (l.map g).sum * a := by
  induction l with
  | nil => simp
  | cons x t ih => simp [ih, add_mul]

lemma list_sum_map_const_real {α : Type} (l : List α) (a : ℝ) :
    (l.map (fun _ => a)).sum = l.length * a := by
  induction l with
  | nil => simp
  | cons x t ih =>
    simp only [List.map_cons, List.sum_cons, ih, List.length_cons]
    push_cast
    ring

/-- Dropping the zero counts changes neither the Nat sum ... -/
lemma sum_filter_pos (counts : List ℕ) :
    (counts.filter (fun c => 0 < c)).sum = counts.sum := by
  induction counts with
  | nil => rfl
  | cons c t ih =>
    by_cases h : 0 < c
    · simp [List.filter_cons, h, ih]
    · have hc : c = 0 := by omega
      simp [List.filter_cons, hc, ih]

/-- ... nor the sum of any per-count summand that vanishes at 0. -/
lemma map_sum_filter_pos (counts : List ℕ) (f : ℕ → ℝ) (h0 : f 0 = 0) :
    ((counts.filter (fun c => 0 < c)).map f).sum = (counts.map f).sum := by
  induction counts with
  | nil => rfl
  | cons c t ih =>
    by_cases h : 0 < c
    · simp [List.filter_cons, h, ih]
    · have hc : c = 0 := by omega
      simp [List.filter_cons, hc, ih, h0]

/-- The Gibbs-inequality step: for p > 0 and m > 0,
`-p log p ≤ 1/m + p (log m - 1)`. -/
lemma neg_mul_log_le (p m : ℝ) (hp : 0 < p) (hm : 0 < m) :
    -(p * Real.log p) ≤ 1 / m + p * (Real.log m - 1) := by
  have hkey : Real.log (1 / (p * m)) ≤ 1 / (p * m) - 1 :=
    Real.log_le_sub_one_of_pos (by positivity)
  have hlog : Real.log (1 / (p * m)) = -Real.log p - Real.log m := by
    rw [one_div, Real.log_inv, Real.log_mul hp.ne' hm.ne']
    ring
  rw [hlog] at hkey
  have h2 : p * (-Real.log p) ≤ p * (1 / (p * m) - 1 + Real.log m) :=
    mul_le_mul_of_nonneg_left (by linarith) hp.le
  have h3 : p * (1 / (p * m)) = 1 / m := by
    field_simp
  calc -(p * Real.log p) = p * (-Real.log p) := by ring
    _ ≤ p * (1 / (p * m) - 1 + Real.log m) := h2
    _ = p * (1 / (p * m)) + p * (Real.log m - 1) := by ring
    _ = 1 / m + p * (Real.log m - 1) := by rw [h3]

lemma logb_two_32 : Real.logb 2 (32 : ℝ) = 5 := by
  rw [show (32 : ℝ) = 2 ^ 5 by norm_num, Real.logb_pow, Real.logb_self_eq_one one_lt_two]
  norm_num

/-- Maximum-entropy bound: the log2 entropy of any probability vector on
`l'.length` outcomes is at most `logb 2 l'.length`. -/
lemma entropy_le_logb (l' : List ℕ) (T : ℝ) (hT : 0 < T)
    (hmem : ∀ c ∈ l', 0 < c) (hne : l' ≠ [])
    (hsum : (l'.map (fun c : ℕ => (c : ℝ) / T)).sum = 1) :
    (l'.map (fun c : ℕ => -((c : ℝ) / T * Real.logb 2 ((c : ℝ) / T)))).sum ≤
      Real.logb 2 (l'.length : ℝ) := by
  have hm : (0 : ℝ) < (l'.length : ℝ) := by
    have : 0 < l'.length := List.length_pos.mpr hne
    exact_mod_cast this
  have hlog2 : (0 : ℝ) < Real.log 2 := Real.log_pos one_lt_two
  have hfun : (fun c : ℕ => -((c : ℝ) / T * Real.logb 2 ((c : ℝ) / T))) =
      fun c : ℕ => (-((c : ℝ) / T * Real.log ((c : ℝ) / T))) / Real.log 2 := by
    funext c
    rw [Real.logb]
    ring
  rw [hfun, list_sum_map_div]
  have hS : (l'.map (fun c : ℕ => -((c : ℝ) / T * Real.log ((c : ℝ) / T)))).sum ≤
      Real.log (l'.length : ℝ) := by
    have hstep : (l'.map (fun c : ℕ => -((c : ℝ) / T * Real.log ((c : ℝ) / T)))).sum ≤
        (l'.map (fun c : ℕ => 1 / (l'.length : ℝ) +
          ((c : ℝ) / T) * (Real.log (l'.length : ℝ) - 1))).sum := by
      apply List.sum_le_sum
      intro c hc
      have hp : (0 : ℝ) < (c : ℝ) / T :=
        div_pos (by exact_mod_cast hmem c hc) hT
      exact neg_mul_log_le _ _ hp hm
    have hrhs : (l'.map (fun c : ℕ => 1 / (l'.length : ℝ) +
        ((c : ℝ) / T) * (Real.log (l'.length : ℝ) - 1))).sum =
        Real.log (l'.length : ℝ) := by
      rw [list_sum_map_add l' (fun _ => 1 / (l'.length : ℝ))
        (fun c => ((c : ℝ) / T) * (Real.log (l'.length : ℝ) - 1))]
      rw [list_sum_map_const_real, list_sum_map_mul_right, hsum]
      field_simp
    rw [hrhs] at hstep
    exact hstep
  calc (l'.map (fun c : ℕ => -((c : ℝ) / T * Real.log ((c : ℝ) / T)))).sum / Real.log 2 ≤
      Real.log (l'.length : ℝ) / Real.log 2 := by
        exact div_le_div_of_nonneg_right hS hlog2.le |>.trans_eq rfl
    _ = Real.logb 2 (l'.length : ℝ) := Real.log_div_log

/-- `_calculate_quantum_entanglement` with a positive total, in closed
form: the log2 entropy of the positive counts over five. -/
lemma cqe_eq (counts : List ℕ) (htot : counts.sum ≠ 0) :
    calculateQuantumEntanglement counts =
      ((counts.map (fun c : ℕ =>
        if 0 < c then
          -((c : ℝ) / (counts.sum : ℝ) * Real.logb 2 ((c : ℝ) / (counts.sum : ℝ)))
        else 0)).sum) / 5 := by
  rw [calculateQuantumEntanglement]
  simp only [if_neg htot]
  have hmin : ((min (2 ^ qubit_count) 32 : ℕ) : ℝ) = 32 := by norm_num [qubit_count]
  rw [hmin, logb_two_32, if_pos (by norm_num : (0:ℝ) < 5)]

/-- The amended bound: whenever the counts mapping has at most 32 entries
(as every in-repo fallback tier produces), the normalised entropy lies in
[0, 1]. -/
lemma calculateQuantumEntanglement_bounds (counts : List ℕ) (hlen : counts.length ≤ 32) :
    0 ≤ calculateQuantumEntanglement counts ∧ calculateQuantumEntanglement counts ≤ 1 := by
  by_cases htot : counts.sum = 0
  · rw [calculateQuantumEntanglement, if_pos htot]
    norm_num
  · rw [cqe_eq counts htot]
    have hTpos : (0 : ℝ) < (counts.sum : ℝ) := by
      exact_mod_cast Nat.pos_of_ne_zero htot
    have hterm_nonneg : ∀ x ∈ counts.map (fun c : ℕ =>
        if 0 < c then
          -((c : ℝ) / (counts.sum : ℝ) * Real.logb 2 ((c : ℝ) / (counts.sum : ℝ)))
        else 0), 0 ≤ x := by
      intro x hx
      rcases List.mem_map.mp hx with ⟨c, hc, rfl⟩
      by_cases h : 0 < c
      · rw [if_pos h]
        have hp0 : (0 : ℝ) ≤ (c : ℝ) / (counts.sum : ℝ) := by positivity
        have hp1 : (c : ℝ) / (counts.sum : ℝ) ≤ 1 := by
          rw [div_le_one hTpos]
          have hcs : c ≤ counts.sum := List.le_sum_of_mem hc
          exact_mod_cast hcs
        have hlogb : Real.logb 2 ((c : ℝ) / (counts.sum : ℝ)) ≤ 0 :=
          Real.logb_nonpos one_lt_two hp0 hp1
        have := mul_nonpos_iff.mpr (Or.inr ⟨hlogb, hp0⟩)
        nlinarith [this]
      · rw [if_neg h]
    constructor
    · exact div_nonneg (List.sum_nonneg hterm_nonneg) (by norm_num)
    · -- entropy ≤ logb 2 m ≤ logb 2 32 = 5, with m the number of positive counts
      set F : ℕ → ℝ := fun c =>
        if 0 < c then
          -((c : ℝ) / (counts.sum : ℝ) * Real.logb 2 ((c : ℝ) / (counts.sum : ℝ)))
        else 0 with hF
      set l' : List ℕ := counts.filter (fun c => 0 < c) with hl'
      have hmem : ∀ c ∈ l', 0 < c := by
        intro c hc
        have := List.of_mem_filter hc
        simpa using this
      have hl'sum : (l'.sum : ℝ) = (counts.sum : ℝ) := by
        exact_mod_cast congrArg Nat.cast (sum_filter_pos counts)
      have hl'ne : l' ≠ [] := by
        intro hnil
        apply htot
        rw [← sum_filter_pos counts]
        rw [hl'] at hnil
        rw [hnil]
        rfl
      have hmpos : (0 : ℝ) < (l'.length : ℝ) := by
        have : 0 < l'.length := List.length_pos.mpr hl'ne
        exact_mod_cast this
      have hm32 : (l'.length : ℝ) ≤ 32 := by
        have h1 : l'.length ≤ counts.length := List.length_filter_le _ _
        have h2 : l'.length ≤ 32 := le_trans h1 hlen
        exact_mod_cast h2
      have hp_sum : (l'.map (fun c : ℕ => (c : ℝ) / (counts.sum : ℝ))).sum = 1 := by
        rw [list_sum_map_div l' (fun c : ℕ => (c : ℝ)) ((counts.sum : ℝ))]
        rw [show l'.map (fun c : ℕ => (c : ℝ)) = l'.map Nat.cast from rfl]
        rw [← Nat.cast_list_sum, hl'sum, div_self hTpos.ne']
      have hFl' : (counts.map F).sum = (l'.map F).sum :=
        (map_sum_filter_pos counts F (by rw [hF]; simp)).symm
      have hFmatch : l'.map F = l'.map (fun c : ℕ =>
          -((c : ℝ) / (counts.sum : ℝ) * Real.logb 2 ((c : ℝ) / (counts.sum : ℝ)))) := by
        refine List.map_congr_left (fun c hc => ?_)
        rw [hF]
        exact if_pos (hmem c hc)
      have hent : (l'.map F).sum ≤ Real.logb 2 (l'.length : ℝ) := by
        rw [hFmatch]
        exact entropy_le_logb l' ((counts.sum : ℝ)) hTpos hmem hl'ne hp_sum
      have hlogle : Real.logb 2 (l'.length : ℝ) ≤ 5 := by
        rw [← logb_two_32]
        exact Real.logb_le_logb_of_le one_lt_two hmpos hm32
      rw [div_le_one (by norm_num : (0:ℝ) < 5)]
      rw [hFl']
      exact le_trans hent hlogle

/-! ## The Pearson correlation is bounded by 1 (Cauchy-Schwarz) -/

lemma sq_map_sum_nonneg (l : List ℝ) : 0 ≤ (l.map (fun x => x ^ 2)).sum := by
  apply List.sum_nonneg
  intro x hx
  rcases List.mem_map.mp hx with ⟨y, -, rfl⟩
  positivity

lemma pair_sq_fst_sum_nonneg (l : List (ℝ × ℝ)) :
    0 ≤ (l.map (fun q => q.1 ^ 2)).sum := by
  apply List.sum_nonneg
  intro x hx
  rcases List.mem_map.mp hx with ⟨y, -, rfl⟩
  positivity

lemma pair_sq_snd_sum_nonneg (l : List (ℝ × ℝ)) :
    0 ≤ (l.map (fun q => q.2 ^ 2)).sum := by
  apply List.sum_nonneg
  intro x hx
  rcases List.mem_map.mp hx with ⟨y, -, rfl⟩
  positivity

/-- Cauchy-Schwarz over a list of pairs. -/
lemma zip_cauchy_schwarz (l : List (ℝ × ℝ)) :
    ((l.map (fun q => q.1 * q.2)).sum) ^ 2 ≤
      (l.map (fun q => q.1 ^ 2)).sum * (l.map (fun q => q.2 ^ 2)).sum := by
  induction l with
  | nil => simp
  | cons q t ih =>
    obtain ⟨a, b⟩ := q
    simp only [List.map_cons, List.sum_cons]
    have hA := pair_sq_fst_sum_nonneg t
    have hB := pair_sq_snd_sum_nonneg t
    set S := (t.map (fun q => q.1 * q.2)).sum with hS
    set A := (t.map (fun q => q.1 ^ 2)).sum with hA2
    set B := (t.map (fun q => q.2 ^ 2)).sum with hB2
    rcases eq_or_lt_of_le hB with hB0 | hBpos
    · have h1 : S ^ 2 ≤ A * B := ih
      rw [← hB0, mul_zero] at h1
      have hS0 : S = 0 :=
        pow_eq_zero_iff two_ne_zero |>.mp (le_antisymm h1 (sq_nonneg S))
      rw [← hB0, hS0]
      nlinarith [mul_nonneg hA (sq_nonneg b)]
    · nlinarith [sq_nonneg (a * B - b * S), mul_nonneg (add_nonneg (sq_nonneg b) hB)
        (sub_nonneg.mpr ih), hBpos]

lemma abs_correlationOf_le_one (xs ys : List ℝ) : |correlationOf xs ys| ≤ 1 := by
  rw [correlationOf]
  split_ifs with h
  · rw [abs_of_nonneg (by norm_num : (0:ℝ) ≤ 0.5)]
    norm_num
  · push_neg at h
    obtain ⟨h1, h2⟩ := h
    have hvx : 0 < varSum xs :=
      lt_of_le_of_ne (sq_map_sum_nonneg (deviations xs)) (Ne.symm h1)
    have hvy : 0 < varSum ys :=
      lt_of_le_of_ne (sq_map_sum_nonneg (deviations ys)) (Ne.symm h2)
    have hcs : (covSum xs ys) ^ 2 ≤ varSum xs * varSum ys := by
      have h3 := zip_cauchy_schwarz ((deviations xs).zip (deviations ys))
      have h4 : (((deviations xs).zip (deviations ys)).map (fun q => q.1 ^ 2)).sum ≤
          varSum xs := by
        rw [varSum]
        clear h3
        generalize deviations xs = dx
        generalize deviations ys = dy
        induction dx generalizing dy with
        | nil => simp
        | cons x t ih =>
          cases dy with
          | nil =>
            simp only [List.zip_nil_right, List.map_nil, List.sum_nil]
            exact sq_map_sum_nonneg (x :: t)
          | cons y u =>
            simp only [List.zip_cons_cons, List.map_cons, List.sum_cons]
            exact add_le_add_left (ih u) _
      have h5 : (((deviations xs).zip (deviations ys)).map (fun q => q.2 ^ 2)).sum ≤
          varSum ys := by
        rw [varSum]
        clear h3 h4
        generalize deviations xs = dx
        generalize deviations ys = dy
        induction dy generalizing dx with
        | nil => simp
        | cons y u ih =>
          cases dx with
          | nil =>
            simp only [List.zip_nil_left, List.map_nil, List.sum_nil]
            exact add_nonneg (sq_nonneg y) (sq_map_sum_nonneg u)
          | cons x t =>
            simp only [List.zip_cons_cons, List.map_cons, List.sum_cons]
            exact add_le_add_left (ih t) _
      have h6 : (((deviations xs).zip (deviations ys)).map (fun q => q.1 ^ 2)).sum *
          (((deviations xs).zip (deviations ys)).map (fun q => q.2 ^ 2)).sum ≤
          varSum xs * varSum ys := by
        apply mul_le_mul h4 h5 (pair_sq_snd_sum_nonneg _) hvx.le
      calc (covSum xs ys) ^ 2 ≤ _ := h3
        _ ≤ varSum xs * varSum ys := h6
    have hdenom : 0 < Real.sqrt (varSum xs) * Real.sqrt (varSum ys) :=
      mul_pos (Real.sqrt_pos.mpr hvx) (Real.sqrt_pos.mpr hvy)
    rw [corrcoef, abs_div, abs_of_pos hdenom, div_le_one hdenom]
    rw [← Real.sqrt_sq_eq_abs, ← Real.sqrt_mul hvx.le]
    exact Real.sqrt_le_sqrt hcs

/-! ## Confidence and resonance bounds (C6) -/

lemma mkGeographicContext_confidence (c : String) (x : ℝ) :
    (mkGeographicContext c x).confidence = x := by
  rw [mkGeographicContext]
  split_ifs <;> rfl

lemma confidence_bounds (keywords : List String) :
    0 ≤ (analyzeGeographicContext keywords).confidence ∧
      (analyzeGeographicContext keywords).confidence ≤ 1 := by
  simp only [analyzeGeographicContext]
  rw [apply_ite GeographicContext.confidence, mkGeographicContext_confidence]
  split_ifs with h
  · constructor
    · exact le_min (by norm_num) (by positivity)
    · exact le_trans (min_le_left _ _) (by norm_num)
  · constructor <;> norm_num

lemma resonance_bounds (keywords : List String) (emotion : String)
    (context : GeographicContext) :
    ∀ v ∈ (calculateEmotionalResonance keywords emotion context).map Prod.snd,
      0.3 ≤ v ∧ v ≤ 0.98 := by
  intro v hv
  simp only [calculateEmotionalResonance, List.map_map] at hv
  rcases List.mem_map.mp hv with ⟨p, hp, rfl⟩
  simp only [Function.comp]
  constructor
  · exact le_min (by norm_num) (le_max_left _ _)
  · exact min_le_left _ _

/-- The strength field unfolds to the product of the three factors. -/
lemma strength_eq (mv : MemoryVector) (es : EmotionQuantumState) :
    (quantumEntanglementAnalysis mv es).entanglement_strength =
      |(quantumEntanglementAnalysis mv es).correlation| *
        mv.entanglement_measure * es.coherence_measure := rfl

lemma correlation_eq (mv : MemoryVector) (es : EmotionQuantumState) :
    (quantumEntanglementAnalysis mv es).correlation =
      correlationOf ((mv.components.take emotion_dimension).map (fun c => Complex.abs c))
        (es.amplitudes.map (fun c => Complex.abs c)) := rfl

/-- C6 counterexample: a uniform counts mapping over 64 distinct states
(each count 1 — exactly what a 512-shot run on the 8-qubit circuit can
return on the Qiskit tier) has normalised entropy 6/5 > 1: the divisor
`log2(min(2^8, 32)) = 5` is too small once more than 32 outcomes occur. -/
theorem c6_counterexample : 1 < calculateQuantumEntanglement (List.replicate 64 1) := by
  have hsum : (List.replicate 64 (1 : ℕ)).sum = 64 := by decide
  have hne : (List.replicate 64 (1 : ℕ)).sum ≠ 0 := by rw [hsum]; norm_num
  rw [cqe_eq _ hne, hsum, List.map_replicate, List.sum_replicate]
  have hlogb : Real.logb 2 (((1 : ℕ) : ℝ) / ((64 : ℕ) : ℝ)) = -6 := by
    have hc : (((1 : ℕ) : ℝ) / ((64 : ℕ) : ℝ)) = ((64 : ℝ))⁻¹ := by push_cast; ring
    rw [hc, Real.logb_inv, show (64 : ℝ) = 2 ^ 6 by norm_num, Real.logb_pow,
      Real.logb_self_eq_one one_lt_two]
    norm_num
  rw [if_pos (by norm_num : 0 < (1 : ℕ)), hlogb]
  push_cast
  norm_num

/-- C6 (amended): all the bounds hold, with the entanglement measure's
[0, 1] range conditioned on the counts mapping having at most 32 entries
(every in-repo fallback tier produces 16 or 32; only the external-backend
tier can exceed that and then the measure can pass 1), and the
entanglement strength's [0, 1] range holding whenever its two factor
measures are themselves in [0, 1] (|correlation| ≤ 1 always). -/
theorem c6_amended_bounds :
    (∀ counts : List ℕ, counts.length ≤ 32 →
      0 ≤ calculateQuantumEntanglement counts ∧ calculateQuantumEntanglement counts ≤ 1) ∧
    (∀ counts : List ℕ,
      0 ≤ calculateQuantumCoherence counts ∧ calculateQuantumCoherence counts ≤ 1) ∧
    (∀ (mv : MemoryVector) (es : EmotionQuantumState),
      0 ≤ mv.entanglement_measure → mv.entanglement_measure ≤ 1 →
      0 ≤ es.coherence_measure → es.coherence_measure ≤ 1 →
      0 ≤ (quantumEntanglementAnalysis mv es).entanglement_strength ∧
        (quantumEntanglementAnalysis mv es).entanglement_strength ≤ 1) ∧
    (∀ keywords : List String,
      0 ≤ (analyzeGeographicContext keywords).confidence ∧
        (analyzeGeographicContext keywords).confidence ≤ 1) ∧
    (∀ (keywords : List String) (emotion : String) (context : GeographicContext),
      ∀ v ∈ (calculateEmotionalResonance keywords emotion context).map Prod.snd,
        0.3 ≤ v ∧ v ≤ 0.98) := by
  refine ⟨calculateQuantumEntanglement_bounds, fun counts => ?_,
    fun mv es he0 he1 hc0 hc1 => ?_, confidence_bounds, resonance_bounds⟩
  · obtain ⟨h1, h2⟩ := calculateQuantumCoherence_bounds counts
    exact ⟨le_trans (by norm_num) h1, h2⟩
  · rw [strength_eq]
    have habs0 : 0 ≤ |(quantumEntanglementAnalysis mv es).correlation| := abs_nonneg _
    have habs1 : |(quantumEntanglementAnalysis mv es).correlation| ≤ 1 := by
      rw [correlation_eq]
      exact abs_correlationOf_le_one _ _
    constructor
    · exact mul_nonneg (mul_nonneg habs0 he0) hc0
    · have hstep : |(quantumEntanglementAnalysis mv es).correlation| *
          mv.entanglement_measure ≤ 1 := mul_le_one₀ habs1 he0 he1
      exact mul_le_one₀ hstep hc0 hc1

end QMemory
